import Mathlib

/-!
# Verification of the L-number extractor of `src/app.py`

The core routine `extract_lnumbers_from_text_with_correction` works on a
string with two compiled patterns:

* `RE_LNUM  = re.compile(r"\bL\d+\b", flags=re.IGNORECASE)`
* `RE_BARE7 = re.compile(r"\b(\d{7})\b")`

It first collects every `RE_LNUM` match (upper-cased), then every `RE_BARE7`
match prefixed with `L` (also recorded in a `corrected` list), and finally
deduplicates the concatenated list preserving first-occurrence order, at the
same time collecting the kept elements that occur in the corrected list.

Texts are modelled as `List Char` and identifiers as `List Char`.  A word
character (for the `\b` boundary) is modelled as an ASCII alphanumeric
character or an underscore, which agrees with Python on every ASCII
character.

Both patterns are such that no position strictly inside a match can start
another match: for `RE_LNUM` the interior positions hold digits (digits
cannot start `L\d+`, and the first digit is preceded by the word character
`L`, the later ones by digits, so `\b` fails there); for `RE_BARE7` the
interior positions are preceded by digits, so `\b` fails there as well.
Hence `finditer`, which resumes after the end of each match, produces the
same match sequence as a scanner that advances one character at a time and
reports every position where a match starts.  The scanners below therefore
advance one character at a time, carrying the previous character (for `\b`)
as an `Option Char`.
-/

/-- Word character of the regex `\b` boundary: ASCII letter, digit, or `_`. -/
def isWordChar (c : Char) : Bool := c.isAlphanum || c == '_'

/-- A `\b` boundary holds in front of a word character when the preceding
character (`none` at the start of the text) is absent or not a word
character. -/
def boundaryOk : Option Char → Bool
  | none => true
  | some c => !isWordChar c

/-- All matches of `RE_LNUM = r"\bL\d+\b"` (case-insensitive), upper-cased,
in left-to-right order. `prev` is the character before the current
position. A match at the current position needs: a boundary before the `L`,
the letter `L` or `l`, a nonempty maximal digit run after it, and a
boundary after the run (next character absent or not a word character). -/
def lnumScan (prev : Option Char) : List Char → List (List Char)
  | [] => []
  | c :: cs =>
    if boundaryOk prev && (c == 'L' || c == 'l')
        && !(cs.takeWhile Char.isDigit).isEmpty
        && boundaryOk (cs.dropWhile Char.isDigit).head? then
      ('L' :: cs.takeWhile Char.isDigit) :: lnumScan (some c) cs
    else
      lnumScan (some c) cs

/-- All matches of `RE_BARE7 = r"\b(\d{7})\b"`, already prefixed with `L`
(the code appends `f"L{m.group(1)}".upper()`), in left-to-right order.
A match at the current position needs: a boundary before, seven digits,
and a boundary after the seventh digit. -/
def bare7Scan (prev : Option Char) : List Char → List (List Char)
  | [] => []
  | c :: cs =>
    if boundaryOk prev && ((c :: cs).take 7).length == 7
        && ((c :: cs).take 7).all Char.isDigit
        && boundaryOk ((c :: cs).drop 7).head? then
      ('L' :: (c :: cs).take 7) :: bare7Scan (some c) cs
    else
      bare7Scan (some c) cs

/-- The deduplication loop of the source: walk `found` keeping each element
the first time it is seen (`seen` collects the processed values), and also
keep it in the corrected output when it occurs in `corrSet` (the set of
corrected candidates). Returns `(out, corr_out)`. -/
def dedupAux (corrSet : List (List Char)) :
    List (List Char) → List (List Char) → List (List Char) × List (List Char)
  | [], _ => ([], [])
  | x :: xs, seen =>
    if x ∈ seen then
      dedupAux corrSet xs seen
    else
      let r := dedupAux corrSet xs (x :: seen)
      (x :: r.1, if x ∈ corrSet then x :: r.2 else r.2)

/-- `extract_lnumbers_from_text_with_correction` of `src/app.py`:
returns `(lnumbers, corrected)`. Empty text short-circuits to `([], [])`;
otherwise the canonical matches are collected first, then the corrected
candidates, and the concatenation is deduplicated preserving order. -/
def extract_lnumbers_from_text_with_correction (text : List Char) :
    List (List Char) × List (List Char) :=
  if text.isEmpty then ([], [])
  else
    dedupAux (bare7Scan none text)
      (lnumScan none text ++ bare7Scan none text) []

/-- `" ".join` of a list of identifiers, as in the idempotence property. -/
def joinIds : List (List Char) → List Char
  | [] => []
  | [x] => x
  | x :: y :: xs => x ++ ' ' :: joinIds (y :: xs)

/-- The shape of a canonical identifier: the letter `L` followed by a
nonempty run of decimal digits. -/
def isIdShape (s : List Char) : Prop :=
  ∃ ds, s = 'L' :: ds ∧ ds ≠ [] ∧ ∀ c ∈ ds, c.isDigit = true

/-! ### Character facts -/

lemma isDigit_not_ell {c : Char} (h : c.isDigit = true) :
    (c == 'L' || c == 'l') = false := by
  simp only [Bool.or_eq_false_iff, beq_eq_false_iff_ne]
  constructor
  · rintro rfl; exact absurd h (by decide)
  · rintro rfl; exact absurd h (by decide)

lemma isWordChar_of_isDigit {c : Char} (h : c.isDigit = true) :
    isWordChar c = true := by
  simp [isWordChar, Char.isAlphanum, h]

lemma whitespace_not_ell {c : Char} (h : c.isWhitespace = true) :
    (c == 'L' || c == 'l') = false ∧ c.isDigit = false := by
  have h' : ((c = ' ' ∨ c = '\t') ∨ c = '\r') ∨ c = '\n' := by
    simpa [Char.isWhitespace] using h
  rcases h' with ((rfl | rfl) | rfl) | rfl <;> exact ⟨by decide, by decide⟩

lemma isWordChar_getLastD {ds : List Char} (hds : ∀ d ∈ ds, d.isDigit = true) :
    ∀ p, isWordChar p = true → isWordChar (ds.getLastD p) = true := by
  induction ds with
  | nil => intro p hp; exact hp
  | cons d ds ih =>
    intro p _
    rw [List.getLastD_cons]
    exact ih (fun x hx => hds x (List.mem_cons_of_mem _ hx)) d
      (isWordChar_of_isDigit (hds d (List.mem_cons_self _ _)))

/-! ### takeWhile / dropWhile over a satisfied prefix -/

lemma takeWhile_append_all {p : Char → Bool} {ds : List Char} (l : List Char)
    (h : ∀ d ∈ ds, p d = true) :
    (ds ++ l).takeWhile p = ds ++ l.takeWhile p := by
  induction ds with
  | nil => rfl
  | cons d ds ih =>
    simp only [List.cons_append, List.takeWhile_cons,
      h d (List.mem_cons_self _ _), if_true]
    rw [ih (fun x hx => h x (List.mem_cons_of_mem _ hx))]

lemma dropWhile_append_all {p : Char → Bool} {ds : List Char} (l : List Char)
    (h : ∀ d ∈ ds, p d = true) :
    (ds ++ l).dropWhile p = l.dropWhile p := by
  induction ds with
  | nil => rfl
  | cons d ds ih =>
    simp only [List.cons_append, List.dropWhile_cons,
      h d (List.mem_cons_self _ _), if_true]
    exact ih (fun x hx => h x (List.mem_cons_of_mem _ hx))

/-! ### Scans find nothing in unmatchable text -/

lemma lnumScan_eq_nil_of_no_ell {l : List Char}
    (h : ∀ c ∈ l, (c == 'L' || c == 'l') = false) :
    ∀ prev, lnumScan prev l = [] := by
  induction l with
  | nil => intro prev; rfl
  | cons c cs ih =>
    intro prev
    rw [lnumScan, if_neg]
    · exact ih (fun x hx => h x (List.mem_cons_of_mem _ hx)) (some c)
    · simp [h c (List.mem_cons_self _ _)]

lemma bare7Scan_eq_nil_of_no_digit {l : List Char}
    (h : ∀ c ∈ l, c.isDigit = false) :
    ∀ prev, bare7Scan prev l = [] := by
  induction l with
  | nil => intro prev; rfl
  | cons c cs ih =>
    intro prev
    rw [bare7Scan, if_neg]
    · exact ih (fun x hx => h x (List.mem_cons_of_mem _ hx)) (some c)
    · simp [List.take_succ_cons, List.all_cons, h c (List.mem_cons_self _ _)]

/-! ### Scans step through a digit run without matching at its interior -/

lemma lnumScan_digit_run {ds : List Char} (hds : ∀ d ∈ ds, d.isDigit = true) :
    ∀ p rest, lnumScan (some p) (ds ++ rest) =
      lnumScan (some (ds.getLastD p)) rest := by
  induction ds with
  | nil => intro p rest; rfl
  | cons d ds ih =>
    intro p rest
    rw [List.cons_append, lnumScan, if_neg, List.getLastD_cons]
    · exact ih (fun x hx => hds x (List.mem_cons_of_mem _ hx)) d rest
    · simp [isDigit_not_ell (hds d (List.mem_cons_self _ _))]

lemma bare7Scan_digit_run {ds : List Char} (hds : ∀ d ∈ ds, d.isDigit = true) :
    ∀ p rest, isWordChar p = true → bare7Scan (some p) (ds ++ rest) =
      bare7Scan (some (ds.getLastD p)) rest := by
  induction ds with
  | nil => intro p rest _; rfl
  | cons d ds ih =>
    intro p rest hp
    rw [List.cons_append, bare7Scan, if_neg, List.getLastD_cons]
    · exact ih (fun x hx => hds x (List.mem_cons_of_mem _ hx)) d rest
        (isWordChar_of_isDigit (hds d (List.mem_cons_self _ _)))
    · simp [boundaryOk, hp]

/-! ### Shapes of the scan outputs -/

lemma shape_of_mem_lnumScan :
    ∀ {l : List Char} {prev s}, s ∈ lnumScan prev l → isIdShape s := by
  intro l
  induction l with
  | nil => intro prev s h; simp [lnumScan] at h
  | cons c cs ih =>
    intro prev s h
    rw [lnumScan] at h
    split at h
    · rename_i hcond
      simp only [Bool.and_eq_true] at hcond
      rcases List.mem_cons.mp h with rfl | h'
      · refine ⟨cs.takeWhile Char.isDigit, rfl, ?_, ?_⟩
        · have := hcond.1.2
          simpa [List.isEmpty_iff] using this
        · intro x hx; exact List.mem_takeWhile_imp hx
      · exact ih h'
    · exact ih h

lemma shape_of_mem_bare7Scan :
    ∀ {l : List Char} {prev s}, s ∈ bare7Scan prev l →
      ∃ ds, s = 'L' :: ds ∧ ds.length = 7 ∧ ∀ c ∈ ds, c.isDigit = true := by
  intro l
  induction l with
  | nil => intro prev s h; simp [bare7Scan] at h
  | cons c cs ih =>
    intro prev s h
    rw [bare7Scan] at h
    split at h
    · rename_i hcond
      simp only [Bool.and_eq_true] at hcond
      rcases List.mem_cons.mp h with rfl | h'
      · refine ⟨(c :: cs).take 7, rfl, ?_, ?_⟩
        · have := hcond.1.1.2
          simpa using this
        · intro x hx; exact List.all_eq_true.mp hcond.1.2 x hx
      · exact ih h'
    · exact ih h

lemma idShape_of_mem_bare7Scan {l : List Char} {prev s}
    (h : s ∈ bare7Scan prev l) : isIdShape s := by
  obtain ⟨ds, rfl, hlen, hds⟩ := shape_of_mem_bare7Scan h
  exact ⟨ds, rfl, by intro he; rw [he] at hlen; exact absurd hlen (by decide), hds⟩

/-! ### Properties of the deduplication loop -/

lemma mem_of_mem_dedupAux_fst {cset : List (List Char)} :
    ∀ {l seen x}, x ∈ (dedupAux cset l seen).1 → x ∈ l := by
  intro l
  induction l with
  | nil => intro seen x h; simp [dedupAux] at h
  | cons a l ih =>
    intro seen x h
    rw [dedupAux] at h
    split at h
    · exact List.mem_cons_of_mem _ (ih h)
    · simp only at h
      rcases List.mem_cons.mp h with rfl | h'
      · exact List.mem_cons_self _ _
      · exact List.mem_cons_of_mem _ (ih h')

lemma not_mem_seen_of_mem_dedupAux_fst {cset : List (List Char)} :
    ∀ {l seen x}, x ∈ (dedupAux cset l seen).1 → x ∉ seen := by
  intro l
  induction l with
  | nil => intro seen x h; simp [dedupAux] at h
  | cons a l ih =>
    intro seen x h
    rw [dedupAux] at h
    split at h
    · exact ih h
    · rename_i hns
      simp only at h
      rcases List.mem_cons.mp h with rfl | h'
      · exact hns
      · intro hx
        exact ih h' (List.mem_cons_of_mem _ hx)

lemma nodup_dedupAux_fst {cset : List (List Char)} :
    ∀ {l seen}, (dedupAux cset l seen).1.Nodup := by
  intro l
  induction l with
  | nil => intro seen; simp [dedupAux]
  | cons a l ih =>
    intro seen
    rw [dedupAux]
    split
    · exact ih
    · simp only
      refine List.Nodup.cons ?_ ih
      intro hx
      exact not_mem_seen_of_mem_dedupAux_fst hx (List.mem_cons_self _ _)

lemma dedupAux_snd_sublist {cset : List (List Char)} :
    ∀ {l seen}, (dedupAux cset l seen).2.Sublist (dedupAux cset l seen).1 := by
  intro l
  induction l with
  | nil => intro seen; simp [dedupAux]
  | cons a l ih =>
    intro seen
    rw [dedupAux]
    split
    · exact ih
    · simp only
      split
      · exact List.Sublist.cons₂ _ ih
      · exact List.Sublist.cons _ ih

lemma mem_cset_of_mem_dedupAux_snd {cset : List (List Char)} :
    ∀ {l seen x}, x ∈ (dedupAux cset l seen).2 → x ∈ cset := by
  intro l
  induction l with
  | nil => intro seen x h; simp [dedupAux] at h
  | cons a l ih =>
    intro seen x h
    rw [dedupAux] at h
    split at h
    · exact ih h
    · simp only at h
      split at h
      · rcases List.mem_cons.mp h with rfl | h'
        · assumption
        · exact ih h'
      · exact ih h

lemma dedupAux_snd_nil :
    ∀ {l seen : List (List Char)}, (dedupAux [] l seen).2 = [] := by
  intro l
  induction l with
  | nil => intro seen; rfl
  | cons a l ih =>
    intro seen
    rw [dedupAux]
    split
    · exact ih
    · simpa using ih

lemma dedupAux_fst_of_nodup {cset : List (List Char)} :
    ∀ {l seen : List (List Char)}, l.Nodup → (∀ x ∈ l, x ∉ seen) →
      (dedupAux cset l seen).1 = l := by
  intro l
  induction l with
  | nil => intro seen _ _; rfl
  | cons a l ih =>
    intro seen hnd hs
    rw [dedupAux, if_neg (hs a (List.mem_cons_self _ _))]
    simp only
    rw [ih (List.Nodup.of_cons hnd)]
    intro x hx
    simp only [List.mem_cons]
    push_neg
    refine ⟨?_, hs x (List.mem_cons_of_mem _ hx)⟩
    rintro rfl
    exact (List.nodup_cons.mp hnd).1 hx

lemma dedupAux_append {cset A : List (List Char)} :
    ∀ (B seen : List (List Char)), ∃ seen2,
      (dedupAux cset (A ++ B) seen).1 =
        (dedupAux cset A seen).1 ++ (dedupAux cset B seen2).1 ∧
      (∀ x ∈ A, x ∈ seen2) ∧ (∀ x ∈ seen, x ∈ seen2) := by
  induction A with
  | nil =>
    intro B seen
    exact ⟨seen, by simp [dedupAux], by simp, fun x hx => hx⟩
  | cons a A ih =>
    intro B seen
    by_cases ha : a ∈ seen
    · obtain ⟨seen2, heq, hA, hseen⟩ := ih B seen
      refine ⟨seen2, ?_, ?_, hseen⟩
      · rw [List.cons_append, dedupAux, if_pos ha, heq, dedupAux, if_pos ha]
      · intro x hx
        rcases List.mem_cons.mp hx with rfl | hx'
        · exact hseen x ha
        · exact hA x hx'
    · obtain ⟨seen2, heq, hA, hseen⟩ := ih B (a :: seen)
      refine ⟨seen2, ?_, ?_, fun x hx => hseen x (List.mem_cons_of_mem _ hx)⟩
      · rw [List.cons_append, dedupAux, if_neg ha, dedupAux, if_neg ha]
        simp only [heq, List.cons_append]
      · intro x hx
        rcases List.mem_cons.mp hx with rfl | hx'
        · exact hseen x (List.mem_cons_self _ _)
        · exact hA x hx'

/-! ### Scanning the space-joined output identifiers -/

lemma takeWhile_all_eq {p : Char → Bool} {ds : List Char}
    (h : ∀ d ∈ ds, p d = true) : ds.takeWhile p = ds := by
  have := @takeWhile_append_all p ds [] h
  simpa using this

lemma dropWhile_all_eq {p : Char → Bool} {ds : List Char}
    (h : ∀ d ∈ ds, p d = true) : ds.dropWhile p = [] := by
  have := @dropWhile_append_all p ds [] h
  simpa using this

lemma dropWhile_eq_self_of_takeWhile_nil {p : Char → Bool} :
    ∀ {l : List Char}, l.takeWhile p = [] → l.dropWhile p = l := by
  intro l h
  cases l with
  | nil => rfl
  | cons c cs =>
    rw [List.takeWhile_cons] at h
    rw [List.dropWhile_cons]
    by_cases hc : p c = true
    · rw [if_pos hc] at h; exact absurd h (by simp)
    · rw [if_neg hc]

lemma lnumScan_space (p : Option Char) (rest : List Char) :
    lnumScan p (' ' :: rest) = lnumScan (some ' ') rest := by
  rw [lnumScan, if_neg]
  simp

lemma bare7Scan_nondigit_start {c : Char} (hc : c.isDigit = false)
    (p : Option Char) (rest : List Char) :
    bare7Scan p (c :: rest) = bare7Scan (some c) rest := by
  rw [bare7Scan, if_neg]
  simp [List.take_succ_cons, List.all_cons, hc]

lemma lnumScan_ell {prev : Option Char} (hb : boundaryOk prev = true)
    {ds : List Char} (rest : List Char)
    (hne : ds ≠ []) (hds : ∀ d ∈ ds, Char.isDigit d = true)
    (hrest : rest.takeWhile Char.isDigit = [])
    (hafter : boundaryOk rest.head? = true) :
    lnumScan prev ('L' :: (ds ++ rest)) =
      ('L' :: ds) :: lnumScan (some (ds.getLastD 'L')) rest := by
  have h1 : (ds ++ rest).takeWhile Char.isDigit = ds := by
    rw [takeWhile_append_all rest hds, hrest, List.append_nil]
  have h2 : (ds ++ rest).dropWhile Char.isDigit = rest := by
    rw [dropWhile_append_all rest hds, dropWhile_eq_self_of_takeWhile_nil hrest]
  rw [lnumScan, if_pos]
  · rw [h1, lnumScan_digit_run hds 'L' rest]
  · simp [hb, h1, h2, List.isEmpty_iff, hne, hafter]

lemma lnumScan_joinIds :
    ∀ (ids : List (List Char)) (prev : Option Char),
      (∀ s ∈ ids, isIdShape s) → boundaryOk prev = true →
      lnumScan prev (joinIds ids) = ids := by
  intro ids
  induction ids with
  | nil => intro prev _ _; rfl
  | cons x ids ih =>
    intro prev hsh hb
    obtain ⟨ds, rfl, hne, hds⟩ := hsh x (List.mem_cons_self _ _)
    cases ids with
    | nil =>
      simp only [joinIds]
      have := lnumScan_ell hb ([] : List Char) hne hds rfl rfl
      simpa using this
    | cons y ids2 =>
      simp only [joinIds, List.cons_append]
      rw [lnumScan_ell hb (' ' :: joinIds (y :: ids2)) hne hds
        (by simp [List.takeWhile_cons])
        (show boundaryOk (some ' ') = true by decide)]
      rw [lnumScan_space]
      rw [ih (some ' ') (fun s hs => hsh s (List.mem_cons_of_mem _ hs))
        (by decide)]

lemma bare7Scan_joinIds :
    ∀ (ids : List (List Char)) (prev : Option Char),
      (∀ s ∈ ids, isIdShape s) → bare7Scan prev (joinIds ids) = [] := by
  intro ids
  induction ids with
  | nil => intro prev _; rfl
  | cons x ids ih =>
    intro prev hsh
    obtain ⟨ds, rfl, _, hds⟩ := hsh x (List.mem_cons_self _ _)
    have hL : Char.isDigit 'L' = false := by decide
    cases ids with
    | nil =>
      simp only [joinIds]
      rw [bare7Scan_nondigit_start hL]
      have := bare7Scan_digit_run hds 'L' [] (by decide)
      simpa using this
    | cons y ids2 =>
      simp only [joinIds, List.cons_append]
      rw [bare7Scan_nondigit_start hL,
        bare7Scan_digit_run hds 'L' _ (by decide),
        bare7Scan_nondigit_start (by decide : Char.isDigit ' ' = false)]
      exact ih (some ' ') (fun s hs => hsh s (List.mem_cons_of_mem _ hs))

/-! ### Unfolding the extractor -/

lemma extract_unfold (text : List Char) :
    extract_lnumbers_from_text_with_correction text =
      dedupAux (bare7Scan none text)
        (lnumScan none text ++ bare7Scan none text) [] := by
  cases text with
  | nil => rfl
  | cons c cs => simp [extract_lnumbers_from_text_with_correction]

lemma idShape_of_mem_extract_fst {text s}
    (h : s ∈ (extract_lnumbers_from_text_with_correction text).1) :
    isIdShape s := by
  rw [extract_unfold] at h
  rcases List.mem_append.mp (mem_of_mem_dedupAux_fst h) with h' | h'
  · exact shape_of_mem_lnumScan h'
  · exact idShape_of_mem_bare7Scan h'

lemma nodup_extract_fst (text : List Char) :
    (extract_lnumbers_from_text_with_correction text).1.Nodup := by
  rw [extract_unfold]
  exact nodup_dedupAux_fst

lemma extract_snd_sublist (text : List Char) :
    (extract_lnumbers_from_text_with_correction text).2.Sublist
      (extract_lnumbers_from_text_with_correction text).1 := by
  rw [extract_unfold]
  exact dedupAux_snd_sublist

-- sanity checks (Scenarios A, B, C, D, E of the spec)
example : extract_lnumbers_from_text_with_correction "L1304179".toList =
    (["L1304179".toList], []) := by decide
example : extract_lnumbers_from_text_with_correction "1304179".toList =
    (["L1304179".toList], ["L1304179".toList]) := by decide
example : extract_lnumbers_from_text_with_correction
    "Item L1304179 and also 1304179 plus L1304179".toList =
    (["L1304179".toList], ["L1304179".toList]) := by decide
example : extract_lnumbers_from_text_with_correction "12345".toList =
    ([], []) := by decide
example : extract_lnumbers_from_text_with_correction "L9999999 8888888".toList =
    (["L9999999".toList, "L8888888".toList], ["L8888888".toList]) := by decide
example : extract_lnumbers_from_text_with_correction "L1234567".toList =
    (["L1234567".toList], []) := by decide

/-! ## The claims -/

/-- C1, counterexample: on the input `L1234567` (the letter `L` followed by
exactly 7 digits) the second scan does not re-collect the digit run, so the
identifier does not appear in the corrected output: the result is
`(["L1234567"], [])`. -/
theorem C1_counterexample :
    extract_lnumbers_from_text_with_correction "L1234567".toList =
      (["L1234567".toList], []) ∧
    "L1234567".toList ∉
      (extract_lnumbers_from_text_with_correction "L1234567".toList).2 :=
  ⟨by decide, by decide⟩

/-- C1 (amended): for an input text consisting of a canonical token `L`
immediately followed by exactly 7 digits, the second scan does not
re-collect the 7-digit run (the preceding `L` is a word character, so no
word boundary precedes the run); the result is the single identifier with
an empty corrected output. -/
theorem C1_adjacent_run_not_recollected (ds : List Char)
    (hlen : ds.length = 7) (hds : ∀ d ∈ ds, d.isDigit = true) :
    extract_lnumbers_from_text_with_correction ('L' :: ds) =
      ([('L' :: ds)], []) := by
  have hne : ds ≠ [] := by
    intro h; rw [h] at hlen; exact absurd hlen (by decide)
  rw [extract_unfold]
  have h1 : lnumScan none ('L' :: ds) = [('L' :: ds)] := by
    have := @lnumScan_ell none rfl ds [] hne hds rfl rfl
    simpa using this
  have h2 : bare7Scan none ('L' :: ds) = [] := by
    rw [bare7Scan_nondigit_start (by decide : Char.isDigit 'L' = false)]
    have := bare7Scan_digit_run hds 'L' [] (by decide)
    simpa using this
  rw [h1, h2, List.append_nil]
  simp [dedupAux]

/-- C1, witness: the amended statement at the digit run `1234567`. -/
theorem C1_witness :
    ("1234567".toList.length = 7) ∧
    extract_lnumbers_from_text_with_correction ('L' :: "1234567".toList) =
      ([('L' :: "1234567".toList)], []) :=
  ⟨by decide, C1_adjacent_run_not_recollected _ (by decide) (by decide)⟩

/-- C2: the identifiers output splits into a prefix of entries that occur
among the canonical matches and a suffix of entries that do not (hence
originate only from bare 7-digit corrections); and
`extract "L9999999 8888888" = (["L9999999", "L8888888"], ["L8888888"])`. -/
theorem C2_canonical_before_corrected :
    (∀ text : List Char, ∃ l1 l2,
      (extract_lnumbers_from_text_with_correction text).1 = l1 ++ l2 ∧
      (∀ x ∈ l1, x ∈ lnumScan none text) ∧
      (∀ x ∈ l2, x ∉ lnumScan none text)) ∧
    extract_lnumbers_from_text_with_correction "L9999999 8888888".toList =
      (["L9999999".toList, "L8888888".toList], ["L8888888".toList]) := by
  constructor
  · intro text
    obtain ⟨seen2, heq, hA, _⟩ :=
      @dedupAux_append (bare7Scan none text) (lnumScan none text)
        (bare7Scan none text) []
    refine ⟨(dedupAux (bare7Scan none text) (lnumScan none text) []).1,
      (dedupAux (bare7Scan none text) (bare7Scan none text) seen2).1,
      ?_, ?_, ?_⟩
    · rw [extract_unfold]; exact heq
    · intro x hx; exact mem_of_mem_dedupAux_fst hx
    · intro x hx hmem
      exact not_mem_seen_of_mem_dedupAux_fst hx (hA x hmem)
  · decide

/-- C3: extraction is idempotent: re-extracting from the space-joined
identifiers output returns the same identifiers and an empty corrected
output. -/
theorem C3_idempotent (text : List Char) :
    extract_lnumbers_from_text_with_correction
      (joinIds (extract_lnumbers_from_text_with_correction text).1) =
    ((extract_lnumbers_from_text_with_correction text).1, []) := by
  have hsh : ∀ s ∈ (extract_lnumbers_from_text_with_correction text).1,
      isIdShape s := fun _ hs => idShape_of_mem_extract_fst hs
  have hnd := nodup_extract_fst text
  rw [extract_unfold,
    lnumScan_joinIds _ none hsh rfl, bare7Scan_joinIds _ none hsh,
    List.append_nil]
  have h1 : (dedupAux [] (extract_lnumbers_from_text_with_correction text).1
      []).1 = (extract_lnumbers_from_text_with_correction text).1 :=
    dedupAux_fst_of_nodup hnd (by simp)
  have h2 : (dedupAux [] (extract_lnumbers_from_text_with_correction text).1
      []).2 = [] := dedupAux_snd_nil
  calc dedupAux [] (extract_lnumbers_from_text_with_correction text).1 []
      = ((dedupAux [] (extract_lnumbers_from_text_with_correction text).1 []).1,
        (dedupAux [] (extract_lnumbers_from_text_with_correction text).1 []).2) :=
        rfl
    _ = ((extract_lnumbers_from_text_with_correction text).1, []) := by
        rw [h1, h2]

/-- C4: the corrected output is a sublist of the identifiers output: every
element of `corrected` occurs in `identifiers` and in the same relative
order. -/
theorem C4_corrected_sublist_identifiers (text : List Char) :
    (extract_lnumbers_from_text_with_correction text).2.Sublist
      (extract_lnumbers_from_text_with_correction text).1 :=
  extract_snd_sublist text

/-- C5: the identifiers output never contains a duplicate: no string occurs
in it more than once. -/
theorem C5_identifiers_nodup (text : List Char) :
    (extract_lnumbers_from_text_with_correction text).1.Nodup :=
  nodup_extract_fst text

/-- C6: an empty or whitespace-only input yields two empty sequences. -/
theorem C6_whitespace_empty (text : List Char)
    (h : ∀ c ∈ text, c.isWhitespace = true) :
    extract_lnumbers_from_text_with_correction text = ([], []) := by
  rw [extract_unfold,
    lnumScan_eq_nil_of_no_ell (fun c hc => (whitespace_not_ell (h c hc)).1) none,
    bare7Scan_eq_nil_of_no_digit
      (fun c hc => (whitespace_not_ell (h c hc)).2) none]
  rfl

/-- C6, witness: the statement at the one-space input. -/
theorem C6_witness :
    (∀ c ∈ [' '], Char.isWhitespace c = true) ∧
    extract_lnumbers_from_text_with_correction [' '] = ([], []) :=
  ⟨by decide, C6_whitespace_empty [' '] (by decide)⟩

/-- C7: every string in either output sequence is an upper-case `L`
followed by one or more decimal digits; and the lower-case input
`l1304179` yields the identifier `L1304179`. -/
theorem C7_output_shape :
    (∀ (text s : List Char),
      s ∈ (extract_lnumbers_from_text_with_correction text).1 ∨
      s ∈ (extract_lnumbers_from_text_with_correction text).2 →
      isIdShape s) ∧
    extract_lnumbers_from_text_with_correction "l1304179".toList =
      (["L1304179".toList], []) := by
  constructor
  · intro text s hs
    rcases hs with hs | hs
    · exact idShape_of_mem_extract_fst hs
    · exact idShape_of_mem_extract_fst ((extract_snd_sublist text).subset hs)
  · decide

/-- C7, witness: the shape statement at the input `l1304179` and its output
identifier `L1304179`. -/
theorem C7_witness :
    ("L1304179".toList ∈
      (extract_lnumbers_from_text_with_correction "l1304179".toList).1 ∨
     "L1304179".toList ∈
      (extract_lnumbers_from_text_with_correction "l1304179".toList).2) ∧
    isIdShape "L1304179".toList :=
  ⟨Or.inl (by decide),
    C7_output_shape.1 "l1304179".toList "L1304179".toList (Or.inl (by decide))⟩

/-- C8: a digit run whose length is not exactly 7 is never turned into a
bare (corrected) candidate: its `L`-prefixed form never occurs among the
candidates collected by the second scan; and `extract "12345" = ([], [])`. -/
theorem C8_non_seven_never_candidate :
    (∀ (text ds : List Char), ds.length ≠ 7 →
      ('L' :: ds) ∉ bare7Scan none text) ∧
    extract_lnumbers_from_text_with_correction "12345".toList = ([], []) := by
  constructor
  · intro text ds hlen hmem
    obtain ⟨ds2, heq, hlen2, _⟩ := shape_of_mem_bare7Scan hmem
    have hd : ds = ds2 := by
      injection heq
    rw [hd] at hlen
    exact hlen hlen2
  · decide

/-- C8, witness: the statement at the 5-digit run `12345`. -/
theorem C8_witness :
    ("12345".toList.length ≠ 7) ∧
    ('L' :: "12345".toList) ∉ bare7Scan none "12345".toList :=
  ⟨by decide, C8_non_seven_never_candidate.1 _ _ (by decide)⟩

/-- C9: the extractor is a total function of the text (the embedding is a
total Lean function), and absence of matches is signaled only by an empty
result: when the identifiers output is empty the whole result is the pair
of two empty sequences. -/
theorem C9_empty_result_signal (text : List Char)
    (h : (extract_lnumbers_from_text_with_correction text).1 = []) :
    extract_lnumbers_from_text_with_correction text = ([], []) := by
  have hs := extract_snd_sublist text
  rw [h] at hs
  have h2 := List.sublist_nil.mp hs
  calc extract_lnumbers_from_text_with_correction text
      = ((extract_lnumbers_from_text_with_correction text).1,
        (extract_lnumbers_from_text_with_correction text).2) := rfl
    _ = ([], []) := by rw [h, h2]

/-- C9, witness: the statement at a non-matching input. -/
theorem C9_witness :
    ((extract_lnumbers_from_text_with_correction "xyz".toList).1 = []) ∧
    extract_lnumbers_from_text_with_correction "xyz".toList = ([], []) :=
  ⟨by decide, C9_empty_result_signal _ (by decide)⟩

/-- C10: every element of the corrected output is exactly 8 characters
long: the letter `L` followed by exactly 7 decimal digits. -/
theorem C10_corrected_length_eight (text s : List Char)
    (h : s ∈ (extract_lnumbers_from_text_with_correction text).2) :
    s.length = 8 ∧
    ∃ ds, s = 'L' :: ds ∧ ds.length = 7 ∧ ∀ c ∈ ds, c.isDigit = true := by
  rw [extract_unfold] at h
  obtain ⟨ds, rfl, hlen, hds⟩ :=
    shape_of_mem_bare7Scan (mem_cset_of_mem_dedupAux_snd h)
  exact ⟨by simp [hlen], ds, rfl, hlen, hds⟩

/-- C10, witness: the statement at the input `1234567` and its corrected
entry `L1234567`. -/
theorem C10_witness :
    ("L1234567".toList ∈
      (extract_lnumbers_from_text_with_correction "1234567".toList).2) ∧
    ("L1234567".toList.length = 8 ∧
     ∃ ds, "L1234567".toList = 'L' :: ds ∧ ds.length = 7 ∧
       ∀ c ∈ ds, c.isDigit = true) :=
  ⟨by decide,
    C10_corrected_length_eight "1234567".toList "L1234567".toList (by decide)⟩
